import Mathlib

/- Verification of the yami arithmetic-expression evaluator (src/main.cc):
a shallow embedding of its tokenizer, Pratt parser and tree-walking
evaluator, together with proofs and refutations of the specified
properties.

Modelling conventions:
- source text is a list of characters; reading one past the end of a
  C++ std::string yields the null terminator, modelled by getCh
  returning the character of code 0 out of range;
- machine doubles are modelled by the type Val: exact rationals
  extended with the two infinities and a quiet NaN.  The operations
  follow IEEE-754 on the sign and infinity structure; finite
  arithmetic is exact (no rounding, no overflow, no signed zero),
  which is faithful for every computation appearing in the claims;
- out-of-bounds std::vector indexing and calls through null member
  function pointers are undefined behaviour in the C++ source; the
  parser model returns the distinguished result PResult.ub there;
- the loops of the source are written as structurally recursive
  functions on an explicit fuel argument so that every definition
  computes by kernel reduction.  The fuel supplied by the top-level
  wrappers strictly exceeds the number of iterations the C++ loops
  can perform (each iteration advances at least one position), and
  running out of fuel is the distinguished result PResult.out, never
  silently conflated with genuine behaviour of the program. -/

namespace Yami

/-- C isdigit in the default locale: the ten ASCII digits 48..57. -/
def isdigit (c : Char) : Bool := 48 ≤ c.toNat && c.toNat ≤ 57

/-- C isspace in the default locale: space, tab, newline, vertical tab,
form feed, carriage return. -/
def isspace (c : Char) : Bool := c.toNat = 32 || (9 ≤ c.toNat && c.toNat ≤ 13)

/-- The null terminator read when a scan position is at or past the end
of the std::string buffer. -/
def nulChar : Char := Char.ofNat 0

/-- Read the source character at position i, the null terminator out of
range (C++ strings are null-terminated). -/
def getCh (s : List Char) (i : Nat) : Char := s.getD i nulChar

/-- The substring from position a (inclusive) to b (exclusive), as built
by std::string(start, it). -/
def slice (s : List Char) (a b : Nat) : List Char := List.take (b - a) (List.drop a s)

/-- enum class TokenType of src/main.cc. -/
inductive TokenType where
  | number
  | minus
  | plus
  | slash
  | star
  | eof
deriving DecidableEq, Repr

/-- struct Token: a kind and the exact source substring it was scanned
from. -/
structure Token where
  type_ : TokenType
  lexeme : List Char
deriving DecidableEq, Repr

/-- The error recorded by Tokenizer::lex through emitError: the offending
character and its zero-based column offset. -/
structure LexError where
  position : Nat
  ch : Char
deriving DecidableEq, Repr

/-- The while-loop of Tokenizer::lexNumber: advance while the current
character is a digit.  Structural in the fuel; the wrappers pass fuel at
least s.length - i, which the loop can never exhaust because a digit at
position i implies i < s.length. -/
def skipDigitsAux : Nat → List Char → Nat → Nat
  | 0, _, i => i
  | f + 1, s, i => if isdigit (getCh s i) then skipDigitsAux f s (i + 1) else i

/-- Advance past the digits starting at position i. -/
def skipDigits (s : List Char) (i : Nat) : Nat := skipDigitsAux (s.length - i) s i

/-- Tokenizer::lexNumber: digits, then an optional fractional part
(a dot followed by digits, possibly none), then an optional exponent
part (the letter e, an optional sign, then digits, possibly none).
Returns the position one past the scanned number. -/
def lexNumber (s : List Char) (i : Nat) : Nat :=
  let j1 := skipDigits s i
  let j2 := if getCh s j1 = '.' then skipDigits s (j1 + 1) else j1
  if getCh s j2 ≠ 'e' then j2
  else
    let j3 := j2 + 1
    let j4 := if getCh s j3 = '-' ∨ getCh s j3 = '+' then j3 + 1 else j3
    skipDigits s j4

/-- The end-of-input sentinel token appended by Tokenizer::lex,
std::string(1, 0) as its lexeme. -/
def eofTok : Token := ⟨TokenType.eof, [nulChar]⟩

/-- The for-loop of Tokenizer::lex.  Note two faithful quirks of the
source: after a number token the loop increment skips the first
character past the number, and on a lexical error the tokens scanned so
far are returned without the end-of-input sentinel. -/
def lexLoop : Nat → List Char → Nat → List Token → List Token × Option LexError
  | 0, _, _, acc => (acc ++ [eofTok], none)
  | f + 1, s, i, acc =>
    if i < s.length then
      let c := getCh s i
      if isspace c then lexLoop f s (i + 1) acc
      else if isdigit c then
        let j := lexNumber s i
        lexLoop f s (j + 1) (acc ++ [⟨TokenType.number, slice s i j⟩])
      else if c = '+' then lexLoop f s (i + 1) (acc ++ [⟨TokenType.plus, [c]⟩])
      else if c = '-' then lexLoop f s (i + 1) (acc ++ [⟨TokenType.minus, [c]⟩])
      else if c = '*' then lexLoop f s (i + 1) (acc ++ [⟨TokenType.star, [c]⟩])
      else if c = '/' then lexLoop f s (i + 1) (acc ++ [⟨TokenType.slash, [c]⟩])
      else (acc, some ⟨i, c⟩)
    else (acc ++ [eofTok], none)

/-- Tokenizer::lex on a whole line.  The fuel s.length + 2 exceeds the
iteration count: every iteration moves the position forward by at least
one. -/
def Tokenizer.lex (src : List Char) : List Token × Option LexError :=
  lexLoop (src.length + 2) src 0 []

/-- Rational addition written through mkRat so that it computes by
kernel reduction; qadd_eq below proves it is the field addition of ℚ. -/
def qadd (a b : ℚ) : ℚ := mkRat (a.num * b.den + b.num * a.den) (a.den * b.den)

/-- Rational negation through mkRat; qneg_eq proves it is field
negation. -/
def qneg (a : ℚ) : ℚ := mkRat (-a.num) a.den

/-- Rational multiplication through mkRat; qmul_eq proves it is field
multiplication. -/
def qmul (a b : ℚ) : ℚ := mkRat (a.num * b.num) (a.den * b.den)

/-- Rational division through mkRat; qdiv_eq proves it is field
division (with division by zero giving zero, as in Lean fields). -/
def qdiv (a b : ℚ) : ℚ :=
  if b.num < 0 then mkRat (-(a.num * b.den)) (a.den * (-b.num).toNat)
  else mkRat (a.num * b.den) (a.den * b.num.toNat)

/-- The rational 10 ^ n written through mkRat; qtenPow_eq proves it is
the monoid power. -/
def qtenPow (n : Nat) : ℚ := mkRat ((10 : ℤ) ^ n) 1

/-- A machine double: an exact rational, an infinity, or NaN. -/
inductive Val where
  | fin (q : ℚ)
  | posInf
  | negInf
  | nan
deriving DecidableEq, Repr

/-- IEEE-754 negation. -/
def Val.neg : Val → Val
  | .fin q => .fin (qneg q)
  | .posInf => .negInf
  | .negInf => .posInf
  | .nan => .nan

/-- IEEE-754 addition (exact in the finite case). -/
def Val.add : Val → Val → Val
  | .nan, _ => .nan
  | _, .nan => .nan
  | .fin a, .fin b => .fin (qadd a b)
  | .fin _, .posInf => .posInf
  | .fin _, .negInf => .negInf
  | .posInf, .fin _ => .posInf
  | .negInf, .fin _ => .negInf
  | .posInf, .posInf => .posInf
  | .negInf, .negInf => .negInf
  | .posInf, .negInf => .nan
  | .negInf, .posInf => .nan

/-- IEEE-754 subtraction, x - y = x + (-y). -/
def Val.sub (a b : Val) : Val := Val.add a (Val.neg b)

/-- IEEE-754 multiplication (exact in the finite case). -/
def Val.mul : Val → Val → Val
  | .nan, _ => .nan
  | _, .nan => .nan
  | .fin a, .fin b => .fin (qmul a b)
  | .fin a, .posInf => if 0 < a then .posInf else if a < 0 then .negInf else .nan
  | .fin a, .negInf => if 0 < a then .negInf else if a < 0 then .posInf else .nan
  | .posInf, .fin b => if 0 < b then .posInf else if b < 0 then .negInf else .nan
  | .negInf, .fin b => if 0 < b then .negInf else if b < 0 then .posInf else .nan
  | .posInf, .posInf => .posInf
  | .negInf, .negInf => .posInf
  | .posInf, .negInf => .negInf
  | .negInf, .posInf => .negInf

/-- IEEE-754 division (exact in the finite case; division of a nonzero
finite value by zero gives a signed infinity, zero by zero gives NaN). -/
def Val.div : Val → Val → Val
  | .nan, _ => .nan
  | _, .nan => .nan
  | .fin a, .fin b =>
    if b = 0 then (if 0 < a then .posInf else if a < 0 then .negInf else .nan)
    else .fin (qdiv a b)
  | .fin _, .posInf => .fin 0
  | .fin _, .negInf => .fin 0
  | .posInf, .fin b => if 0 ≤ b then .posInf else .negInf
  | .negInf, .fin b => if 0 ≤ b then .negInf else .posInf
  | .posInf, .posInf => .nan
  | .posInf, .negInf => .nan
  | .negInf, .posInf => .nan
  | .negInf, .negInf => .nan

/-- Numeric value of an ASCII digit. -/
def digitVal (c : Char) : Nat := c.toNat - 48

/-- Accumulating integer scan of std::strtod: consume leading digits. -/
def readIntAux : List Char → Nat → Nat × List Char
  | [], acc => (acc, [])
  | c :: r, acc => if isdigit c then readIntAux r (10 * acc + digitVal c) else (acc, c :: r)

/-- Digit scan that also counts the digits consumed (used for the
fractional part and the exponent of std::strtod). -/
def readFracAux : List Char → Nat → Nat → Nat × Nat × List Char
  | [], acc, n => (acc, n, [])
  | c :: r, acc, n =>
    if isdigit c then readFracAux r (10 * acc + digitVal c) (n + 1) else (acc, n, c :: r)

/-- Model of std::strtod on the lexemes the tokenizer can produce
(digits, an optional fractional part, an optional exponent part), with
exact rational arithmetic in place of rounded binary arithmetic.
strtod converts the longest valid prefix: an exponent part with no
digits after the optional sign is ignored, and the empty string
converts to 0. -/
def strtod (cs : List Char) : ℚ :=
  let p1 := readIntAux cs 0
  let p2 :=
    match p1.2 with
    | '.' :: rd => readFracAux rd 0 0
    | _ => (0, 0, p1.2)
  let base : ℚ := qadd (mkRat (p1.1 : Int) 1) (qdiv (mkRat (p2.1 : Int) 1) (qtenPow p2.2.1))
  match p2.2.2 with
  | 'e' :: re =>
    let sp :=
      match re with
      | '-' :: rr => (true, rr)
      | '+' :: rr => (false, rr)
      | _ => (false, re)
    let ep := readFracAux sp.2 0 0
    if ep.2.1 = 0 then base
    else if sp.1 then qdiv base (qtenPow ep.1) else qmul base (qtenPow ep.1)
  | _ => base

/-- The expression-tree nodes of src/main.cc.  nullE models the null
Expr pointer that the parser returns on an error path and that error
recovery can wrap into a node. -/
inductive Expr where
  | nullE
  | literal (value : ℚ)
  | unaryE (op : TokenType) (right : Expr)
  | binaryE (op : TokenType) (left right : Expr)
deriving DecidableEq, Repr

/-- The Precedence enum. -/
def NONE : Nat := 0

/-- Precedence of + and - used as binary operators. -/
def TERM : Nat := 1

/-- Precedence of * and /. -/
def FACTOR : Nat := 2

/-- Precedence of the unary operand parse. -/
def UNARY : Nat := 3

/-- Precedence of number literals in the rule table. -/
def PRIMARY : Nat := 4

/-- Tags for the member-function pointers stored in a ParseRule. -/
inductive PrefixFn where
  | unaryFn
  | primaryFn
deriving DecidableEq, Repr

/-- Tag for the only infix member-function pointer ever registered. -/
inductive InfixFn where
  | binaryFn
deriving DecidableEq, Repr

/-- struct ParseRule: precedence, optional infix action, optional prefix
action (a missing action models a null member-function pointer). -/
structure ParseRule where
  precedence : Nat
  infixA : Option InfixFn
  prefixA : Option PrefixFn
deriving DecidableEq, Repr

/-- The rule table built by PrattParser::registerAllRules. -/
def getRule : TokenType → ParseRule
  | .plus => ⟨TERM, some .binaryFn, some .unaryFn⟩
  | .minus => ⟨TERM, some .binaryFn, some .unaryFn⟩
  | .star => ⟨FACTOR, some .binaryFn, none⟩
  | .slash => ⟨FACTOR, some .binaryFn, none⟩
  | .number => ⟨PRIMARY, none, some .primaryFn⟩
  | .eof => ⟨NONE, none, none⟩

/-- The parse errors PrattParser can emit: a token with no prefix rule
(carrying its lexeme), or the dead non-number branch of primary. -/
inductive PError where
  | expectExpr (lexeme : List Char)
  | expectNumber
deriving DecidableEq, Repr

/-- The mutable state of a PrattParser: the token vector, the cursor,
and the errors emitted so far (hadError_ is their nonemptiness). -/
structure PState where
  tokens : List Token
  current : Nat
  errors : List PError
deriving DecidableEq, Repr

/-- Erronable::emitError as seen by the parser. -/
def emitError (e : PError) (s : PState) : PState := { s with errors := s.errors ++ [e] }

/-- PrattParser::peek, tokens_[current_]; out of range is undefined
behaviour. -/
def peekT (s : PState) : Option Token := s.tokens.get? s.current

/-- PrattParser::previous, tokens_[current_ - 1]; with current_ = 0 the
unsigned index wraps around and the access is out of bounds. -/
def previousT (s : PState) : Option Token :=
  if s.current = 0 then none else s.tokens.get? (s.current - 1)

/-- PrattParser::advance: step past the current token unless it is the
end-of-input sentinel, then return previous(). -/
def advance (s : PState) : Option (Token × PState) :=
  match peekT s with
  | none => none
  | some t =>
    let s1 := if t.type_ = TokenType.eof then s else { s with current := s.current + 1 }
    match previousT s1 with
    | none => none
    | some p => some (p, s1)

/-- Result of running the parser model: a value, undefined behaviour of
the C++ source (out-of-bounds access or a call through a null member
function pointer), or fuel exhaustion of the model. -/
inductive PResult (α : Type) where
  | ok (a : α)
  | ub
  | out
deriving DecidableEq, Repr

/-- PrattParser::primary: the just-consumed token should be a number;
its lexeme is converted with std::strtod.  The other branch emits
"Expect a number literal" and returns the null pointer. -/
def primaryP (s : PState) : PResult (Expr × PState) :=
  match previousT s with
  | none => .ub
  | some token =>
    if token.type_ = TokenType.number then .ok (.literal (strtod token.lexeme), s)
    else .ok (.nullE, emitError .expectNumber s)

/-- The two mutually recursive control points of the parser:
parsePrecedence entry, and its infix while-loop with the expression
built so far. -/
inductive PCall where
  | prec (minPrec : Nat) (s : PState)
  | loop (minPrec : Nat) (acc : Expr) (s : PState)

/-- PrattParser::parsePrecedence together with PrattParser::unary,
PrattParser::binary and the infix while-loop, as one function
structurally recursive on fuel.
The prec branch: advance, look up the prefix action of the consumed
token; a missing action emits "Expect expression / Unable to parse"
with the offending lexeme and returns the null pointer immediately
(skipping the loop); the unary action parses its operand at UNARY
precedence; the primary action builds a literal.  The loop branch:
while the next token's rule precedence is at least minPrec, advance and
run its infix action; the only registered infix action is binary, which
parses the right operand at the operator's precedence plus one; a token
whose rule has no infix action (a number) reached here is a call
through a null member-function pointer, undefined behaviour. -/
def parseStep : Nat → PCall → PResult (Expr × PState)
  | 0, _ => .out
  | f + 1, .prec minPrec s =>
    match advance s with
    | none => .ub
    | some (token, s1) =>
      match (getRule token.type_).prefixA with
      | none => .ok (.nullE, emitError (.expectExpr token.lexeme) s1)
      | some .primaryFn =>
        match primaryP s1 with
        | .ok (e, s2) => parseStep f (.loop minPrec e s2)
        | .ub => .ub
        | .out => .out
      | some .unaryFn =>
        match previousT s1 with
        | none => .ub
        | some op =>
          match parseStep f (.prec UNARY s1) with
          | .ok (right, s2) => parseStep f (.loop minPrec (.unaryE op.type_ right) s2)
          | .ub => .ub
          | .out => .out
  | f + 1, .loop minPrec e s =>
    match peekT s with
    | none => .ub
    | some t =>
      if (getRule t.type_).precedence < minPrec then .ok (e, s)
      else
        match advance s with
        | none => .ub
        | some (token, s1) =>
          match (getRule token.type_).infixA with
          | none => .ub
          | some .binaryFn =>
            match previousT s1 with
            | none => .ub
            | some op =>
              match parseStep f (.prec ((getRule op.type_).precedence + 1) s1) with
              | .ok (right, s2) =>
                parseStep f (.loop minPrec (.binaryE op.type_ e right) s2)
              | .ub => .ub
              | .out => .out

/-- PrattParser::parse / PrattParser::expression: parse at TERM, the
lowest real precedence, starting from the first token with no errors.
The fuel bounds the recursion depth of the C++ parser, which consumes
at least one token before each recursive entry. -/
def parseTokens (toks : List Token) : PResult (Expr × PState) :=
  parseStep (2 * toks.length + 8) (.prec TERM ⟨toks, 0, []⟩)

/-- Evaluator::evaluateExpression: the value together with the
evaluator's error flag (set by the invalid-operator branches, which
fall through to returning NaN).  A null child evaluates to NaN without
an error, because dynamic_cast of a null pointer fails every
instanceof test. -/
def evaluateExpression : Expr → Val × Bool
  | .binaryE op l r =>
    let lv := evaluateExpression l
    let rv := evaluateExpression r
    match op with
    | .plus => (Val.add lv.1 rv.1, lv.2 || rv.2)
    | .minus => (Val.sub lv.1 rv.1, lv.2 || rv.2)
    | .star => (Val.mul lv.1 rv.1, lv.2 || rv.2)
    | .slash => (Val.div lv.1 rv.1, lv.2 || rv.2)
    | _ => (Val.nan, true)
  | .unaryE op r =>
    let rv := evaluateExpression r
    match op with
    | .plus => (rv.1, rv.2)
    | .minus => (Val.neg rv.1, rv.2)
    | _ => (Val.nan, true)
  | .literal v => (.fin v, false)
  | .nullE => (Val.nan, false)

/-- Outcome of one read-eval-print iteration of main on a line: a
lexical error (the line is abandoned before parsing), a parse error
(the line is abandoned before evaluation), or the evaluated value with
the evaluator's error flag. -/
inductive Outcome where
  | lexFail (position : Nat) (ch : Char)
  | parseFail (errors : List PError)
  | value (v : Val) (evalError : Bool)
deriving DecidableEq, Repr

/-- One iteration of the main loop on one input line: tokenize, parse
unless tokenizing failed, evaluate unless parsing failed. -/
def runLine (src : List Char) : PResult Outcome :=
  match Tokenizer.lex src with
  | (_, some e) => .ok (.lexFail e.position e.ch)
  | (toks, none) =>
    match parseTokens toks with
    | .ok (e, st) =>
      if st.errors = [] then
        .ok (.value (evaluateExpression e).1 (evaluateExpression e).2)
      else .ok (.parseFail st.errors)
    | .ub => .ub
    | .out => .out

/-- Take the leading digits of a character list (reference matcher for
the numeric grammar of the spec). -/
def spanDigits : List Char → List Char × List Char
  | [] => ([], [])
  | c :: r =>
    if isdigit c then
      let p := spanDigits r
      (c :: p.1, p.2)
    else ([], c :: r)

/-- Consume an optional strict fractional part: a dot must be followed
by at least one digit. -/
def afterDotStrict : List Char → Option (List Char)
  | '.' :: r =>
    let p := spanDigits r
    if p.1.isEmpty then none else some p.2
  | r => some r

/-- Check an optional strict exponent part closing the word: the letter
e and an optional sign must be followed by at least one digit, and
nothing may follow. -/
def afterExpStrict : List Char → Bool
  | [] => true
  | 'e' :: r =>
    let r2 :=
      match r with
      | c :: r3 => if c = '-' || c = '+' then r3 else c :: r3
      | [] => []
    let p := spanDigits r2
    !p.1.isEmpty && p.2.isEmpty
  | _ => false

/-- The numeric grammar of the spec, digits then an optional dot with
digits then an optional exponent with digits, matched against the whole
word. -/
def numGrammarStrict (cs : List Char) : Bool :=
  let p := spanDigits cs
  !p.1.isEmpty &&
    match afterDotStrict p.2 with
    | none => false
    | some r2 => afterExpStrict r2

/-- Consume an optional relaxed fractional part: a dot followed by any
number of digits, possibly none. -/
def afterDotRelaxed : List Char → List Char
  | '.' :: r => (spanDigits r).2
  | r => r

/-- Check an optional relaxed exponent part closing the word: the
letter e, an optional sign, then any number of digits, possibly none,
and nothing may follow. -/
def afterExpRelaxed : List Char → Bool
  | [] => true
  | 'e' :: r =>
    let r2 :=
      match r with
      | c :: r3 => if c = '-' || c = '+' then r3 else c :: r3
      | [] => []
    (spanDigits r2).2.isEmpty
  | _ => false

/-- The relaxed numeric grammar actually scanned by lexNumber: digits,
an optional dot with possibly no digits after it, an optional exponent
with possibly no digits after the optional sign. -/
def numGrammarRelaxed (cs : List Char) : Bool :=
  let p := spanDigits cs
  !p.1.isEmpty && afterExpRelaxed (afterDotRelaxed p.2)

/-- Well-formedness of an expression tree as the evaluator needs it: no
null children, binary operators among + - * /, unary operators among
+ -. -/
def goodExpr : Expr → Bool
  | .nullE => false
  | .literal _ => true
  | .unaryE op r =>
    (op = TokenType.plus || op = TokenType.minus) && goodExpr r
  | .binaryE op l r =>
    (op = TokenType.plus || op = TokenType.minus ||
      op = TokenType.star || op = TokenType.slash) && goodExpr l && goodExpr r

/-- The parser state grows its error list monotonically; errExt s s1
says s1's errors extend s's. -/
def errExt (s s1 : PState) : Prop := ∃ t, s1.errors = s.errors ++ t

/-- The computable addition is the field addition of ℚ. -/
theorem qadd_eq (a b : ℚ) : qadd a b = a + b := by
  have ha : ((a.den : ℤ)) ≠ 0 := by exact_mod_cast a.den_nz
  have hb : ((b.den : ℤ)) ≠ 0 := by exact_mod_cast b.den_nz
  rw [qadd, Rat.mkRat_eq_divInt]
  conv_rhs => rw [← Rat.num_divInt_den a, ← Rat.num_divInt_den b]
  rw [Rat.divInt_add_divInt _ _ ha hb]
  push_cast
  rfl

/-- The computable negation is the field negation of ℚ. -/
theorem qneg_eq (a : ℚ) : qneg a = -a := by
  rw [qneg, Rat.mkRat_eq_divInt, ← Rat.neg_def]

/-- The computable multiplication is the field multiplication of ℚ. -/
theorem qmul_eq (a b : ℚ) : qmul a b = a * b := by
  rw [qmul, Rat.mkRat_eq_divInt]
  conv_rhs => rw [← Rat.num_divInt_den a, ← Rat.num_divInt_den b]
  rw [Rat.divInt_mul_divInt']
  push_cast
  rfl

/-- The computable division is the field division of ℚ. -/
theorem qdiv_eq (a b : ℚ) : qdiv a b = a / b := by
  have hdiv : a / b = Rat.divInt (a.num * b.den) (a.den * b.num) := by
    conv_lhs => rw [← Rat.num_divInt_den a, ← Rat.num_divInt_den b]
    rw [Rat.divInt_div_divInt]
  rw [qdiv, hdiv]
  by_cases hb : b.num < 0
  · rw [if_pos hb, Rat.mkRat_eq_divInt]
    have h1 : (((a.den * (-b.num).toNat : ℕ)) : ℤ) = a.den * (-b.num) := by
      push_cast [Int.toNat_of_nonneg (by omega : (0 : ℤ) ≤ -b.num)]
      ring
    rw [h1]
    have h2 : Rat.divInt (-(a.num * (b.den : ℤ))) ((a.den : ℤ) * -b.num) =
        Rat.divInt (-(a.num * b.den)) (-((a.den : ℤ) * b.num)) := by
      ring_nf
    rw [h2, Rat.neg_divInt_neg]
  · rw [if_neg hb, Rat.mkRat_eq_divInt]
    have h1 : (((a.den * b.num.toNat : ℕ)) : ℤ) = a.den * b.num := by
      push_cast [Int.toNat_of_nonneg (by omega : (0 : ℤ) ≤ b.num)]
      ring
    rw [h1]

/-- The computable power of ten is the monoid power of ℚ. -/
theorem qtenPow_eq (n : Nat) : qtenPow n = (10 : ℚ) ^ n := by
  rw [qtenPow, Rat.mkRat_one]
  push_cast
  rfl

/-- The null terminator is not a digit. -/
theorem isdigit_nul : isdigit nulChar = false := by decide

/-- A digit read at position i lies inside the string: out of range the
read yields the null terminator, which is not a digit. -/
theorem isdigit_getCh_lt {s : List Char} {i : Nat} (h : isdigit (getCh s i) = true) :
    i < s.length := by
  by_contra hge
  rw [getCh, List.getD_eq_default _ _ (by omega)] at h
  rw [isdigit_nul] at h
  cases h

/-- A position holding a character other than the null terminator lies
inside the string. -/
theorem getCh_ne_nul_lt {s : List Char} {i : Nat} (h : getCh s i ≠ nulChar) :
    i < s.length := by
  by_contra hge
  rw [getCh, List.getD_eq_default _ _ (by omega)] at h
  exact h rfl

/-- The digit scan never moves backwards. -/
theorem skipDigitsAux_ge (f : Nat) : ∀ (s : List Char) (i : Nat), i ≤ skipDigitsAux f s i := by
  induction f with
  | zero => intro s i; simp [skipDigitsAux]
  | succ f ih =>
    intro s i
    simp only [skipDigitsAux]
    split
    · exact le_trans (by omega) (ih s (i + 1))
    · exact le_refl i

/-- The slice from a position to itself is empty. -/
theorem slice_self (s : List Char) (i : Nat) : slice s i i = [] := by
  simp [slice]

/-- A nonempty slice starts with the character at its left position. -/
theorem slice_cons {s : List Char} {a b : Nat} (ha : a < s.length) (hab : a < b) :
    slice s a b = getCh s a :: slice s (a + 1) b := by
  unfold slice
  rw [List.drop_eq_getElem_cons ha]
  have hb : b - a = (b - (a + 1)) + 1 := by omega
  rw [hb, List.take_succ_cons]
  rw [getCh, List.getD_eq_getElem _ _ ha]

/-- Slices concatenate at an intermediate position. -/
theorem slice_append {s : List Char} {a b c : Nat} (hab : a ≤ b) (hbc : b ≤ c) :
    slice s a c = slice s a b ++ slice s b c := by
  unfold slice
  have h1 : c - a = (b - a) + (c - b) := by omega
  rw [h1, List.take_add, List.drop_drop]
  have h2 : a + (b - a) = b := by omega
  rw [h2]

/-- A one-character slice is the character at its position. -/
theorem slice_singleton {s : List Char} {a : Nat} (ha : a < s.length) :
    slice s a (a + 1) = [getCh s a] := by
  rw [slice_cons ha (by omega), slice_self]

/-- Every character passed over by the digit scan is a digit. -/
theorem skipDigitsAux_digits (f : Nat) :
    ∀ (s : List Char) (i : Nat), ∀ c ∈ slice s i (skipDigitsAux f s i), isdigit c = true := by
  induction f with
  | zero => intro s i c hc; rw [skipDigitsAux, slice_self] at hc; cases hc
  | succ f ih =>
    intro s i c hc
    rw [skipDigitsAux] at hc
    split at hc
    · rename_i hd
      rw [slice_cons (isdigit_getCh_lt hd)
        (by have := skipDigitsAux_ge f s (i + 1); omega)] at hc
      rcases List.mem_cons.mp hc with hc | hc
      · rw [hc]; exact hd
      · exact ih s (i + 1) c hc
    · rw [slice_self] at hc; cases hc

/-- With adequate fuel the digit scan stops at a non-digit (possibly
the null terminator at the end of the string). -/
theorem skipDigitsAux_stop (f : Nat) :
    ∀ (s : List Char) (i : Nat), s.length - i ≤ f →
      isdigit (getCh s (skipDigitsAux f s i)) = false := by
  induction f with
  | zero =>
    intro s i h
    rw [skipDigitsAux, getCh, List.getD_eq_default _ _ (by omega)]
    exact isdigit_nul
  | succ f ih =>
    intro s i h
    rw [skipDigitsAux]
    split
    · rename_i hd
      exact ih s (i + 1) (by have := isdigit_getCh_lt hd; omega)
    · rename_i hd
      exact Bool.not_eq_true _ ▸ (by simpa using hd)

/-- The digit scan never moves backwards. -/
theorem skipDigits_ge (s : List Char) (i : Nat) : i ≤ skipDigits s i :=
  skipDigitsAux_ge _ s i

/-- Every character passed over by the digit scan is a digit. -/
theorem skipDigits_digits (s : List Char) (i : Nat) :
    ∀ c ∈ slice s i (skipDigits s i), isdigit c = true :=
  skipDigitsAux_digits _ s i

/-- The digit scan stops at a non-digit. -/
theorem skipDigits_stop (s : List Char) (i : Nat) :
    isdigit (getCh s (skipDigits s i)) = false :=
  skipDigitsAux_stop _ s i (le_refl _)

/-- Starting on a digit, the digit scan advances at least one
position. -/
theorem skipDigits_gt {s : List Char} {i : Nat} (h : isdigit (getCh s i) = true) :
    i + 1 ≤ skipDigits s i := by
  have hlt := isdigit_getCh_lt h
  obtain ⟨f, hf⟩ : ∃ f, s.length - i = f + 1 := ⟨s.length - i - 1, by omega⟩
  rw [skipDigits, hf, skipDigitsAux, if_pos h]
  exact skipDigitsAux_ge f s (i + 1)

/-- The reference digit span consumes an all-digit list entirely. -/
theorem spanDigits_all {l : List Char} (h : ∀ c ∈ l, isdigit c = true) :
    spanDigits l = (l, []) := by
  induction l with
  | nil => rfl
  | cons c r ih =>
    simp only [spanDigits]
    rw [if_pos (h c (by simp)), ih (fun x hx => h x (by simp [hx]))]

/-- The reference digit span stops exactly at the first non-digit. -/
theorem spanDigits_append {a r : List Char} (ha : ∀ c ∈ a, isdigit c = true)
    (hr : ∀ c r2, r = c :: r2 → isdigit c = false) :
    spanDigits (a ++ r) = (a, r) := by
  induction a with
  | nil =>
    cases r with
    | nil => rfl
    | cons c r2 =>
      simp only [List.nil_append, spanDigits]
      rw [if_neg (by simp [hr c r2 rfl])]
  | cons c a2 ih =>
    simp only [List.cons_append, spanDigits, List.append_eq]
    rw [if_pos (ha c (by simp)), ih (fun x hx => ha x (by simp [hx]))]

/-- A digit is not a sign character. -/
theorem isdigit_not_sign {c : Char} (h : isdigit c = true) :
    (c = '-' || c = '+') = false := by
  have h1 : c ≠ '-' := by intro he; rw [he] at h; cases h
  have h2 : c ≠ '+' := by intro he; rw [he] at h; cases h
  simp [h1, h2]

/-- The relaxed exponent-part check accepts the letter e, an optional
sign, and any digits, at the end of the word. -/
theorem afterExpRelaxed_parts {sp d3 : List Char}
    (hsp : sp = [] ∨ sp = ['-'] ∨ sp = ['+']) (hd3 : ∀ c ∈ d3, isdigit c = true) :
    afterExpRelaxed ('e' :: (sp ++ d3)) = true := by
  rcases hsp with hsp | hsp | hsp
  · subst hsp
    cases d3 with
    | nil => rfl
    | cons c r3 =>
      simp only [List.nil_append, afterExpRelaxed]
      rw [isdigit_not_sign (hd3 c (by simp))]
      simp only [Bool.false_eq_true, if_false]
      rw [spanDigits_all hd3]
      rfl
  · subst hsp
    simp only [List.cons_append, List.nil_append, afterExpRelaxed]
    rw [if_pos (by decide), spanDigits_all hd3]
    rfl
  · subst hsp
    simp only [List.cons_append, List.nil_append, afterExpRelaxed]
    rw [if_pos (by decide), spanDigits_all hd3]
    rfl

/-- The relaxed matcher accepts a bare digit run. -/
theorem relaxed_digits {d : List Char} (hne : d ≠ [])
    (hd : ∀ c ∈ d, isdigit c = true) : numGrammarRelaxed d = true := by
  rw [numGrammarRelaxed, spanDigits_all hd]
  simp [List.isEmpty_iff, hne, afterDotRelaxed, afterExpRelaxed]

/-- The relaxed matcher accepts digits, a dot, then digits (possibly
none). -/
theorem relaxed_dot {d d2 : List Char} (hne : d ≠ [])
    (hd : ∀ c ∈ d, isdigit c = true) (hd2 : ∀ c ∈ d2, isdigit c = true) :
    numGrammarRelaxed (d ++ '.' :: d2) = true := by
  rw [numGrammarRelaxed,
    spanDigits_append hd (by intro c r2 he; injection he with h1 _; subst h1; decide)]
  simp only
  rw [afterDotRelaxed, spanDigits_all hd2]
  simp [List.isEmpty_iff, hne, afterExpRelaxed]

/-- The relaxed matcher accepts digits, the letter e, an optional sign
and digits (possibly none). -/
theorem relaxed_exp {d d3 : List Char} (sp : List Char) (hne : d ≠ [])
    (hd : ∀ c ∈ d, isdigit c = true)
    (hsp : sp = [] ∨ sp = ['-'] ∨ sp = ['+']) (hd3 : ∀ c ∈ d3, isdigit c = true) :
    numGrammarRelaxed (d ++ 'e' :: (sp ++ d3)) = true := by
  rw [numGrammarRelaxed,
    spanDigits_append hd (by intro c r2 he; injection he with h1 _; subst h1; decide)]
  simp only
  have hdot : afterDotRelaxed ('e' :: (sp ++ d3)) = 'e' :: (sp ++ d3) := rfl
  rw [hdot, afterExpRelaxed_parts hsp hd3]
  simp [List.isEmpty_iff, hne]

/-- The relaxed matcher accepts digits, a dot and digits, the letter e,
an optional sign and digits. -/
theorem relaxed_dotexp {d d2 d3 : List Char} (sp : List Char) (hne : d ≠ [])
    (hd : ∀ c ∈ d, isdigit c = true) (hd2 : ∀ c ∈ d2, isdigit c = true)
    (hsp : sp = [] ∨ sp = ['-'] ∨ sp = ['+']) (hd3 : ∀ c ∈ d3, isdigit c = true) :
    numGrammarRelaxed (d ++ '.' :: (d2 ++ 'e' :: (sp ++ d3))) = true := by
  rw [numGrammarRelaxed,
    spanDigits_append hd (by intro c r2 he; injection he with h1 _; subst h1; decide)]
  simp only
  rw [afterDotRelaxed,
    spanDigits_append hd2 (by intro c r2 he; injection he with h1 _; subst h1; decide)]
  simp only
  rw [afterExpRelaxed_parts hsp hd3]
  simp [List.isEmpty_iff, hne]

/-- The lexeme scanned by lexNumber from a digit always matches the
relaxed numeric grammar. -/
theorem lexNumber_relaxed {s : List Char} {i : Nat} (h : isdigit (getCh s i) = true) :
    numGrammarRelaxed (slice s i (lexNumber s i)) = true := by
  have hi := isdigit_getCh_lt h
  have hiA : i ≤ skipDigits s i := skipDigits_ge s i
  have hiA1 : i + 1 ≤ skipDigits s i := skipDigits_gt h
  have hd1 : ∀ c ∈ slice s i (skipDigits s i), isdigit c = true := skipDigits_digits s i
  have hne1 : slice s i (skipDigits s i) ≠ [] := by
    rw [slice_cons hi (by omega)]
    simp
  rw [lexNumber]
  simp only
  by_cases hdot : getCh s (skipDigits s i) = '.'
  · rw [if_pos hdot]
    have hAlt : skipDigits s i < s.length := getCh_ne_nul_lt (by rw [hdot]; decide)
    have hAB : skipDigits s i + 1 ≤ skipDigits s (skipDigits s i + 1) :=
      skipDigits_ge s (skipDigits s i + 1)
    have hd2 : ∀ c ∈ slice s (skipDigits s i + 1) (skipDigits s (skipDigits s i + 1)),
        isdigit c = true := skipDigits_digits s (skipDigits s i + 1)
    by_cases he : getCh s (skipDigits s (skipDigits s i + 1)) = 'e'
    · rw [if_neg (not_not_intro he)]
      have hBlt : skipDigits s (skipDigits s i + 1) < s.length :=
        getCh_ne_nul_lt (by rw [he]; decide)
      by_cases hsg : getCh s (skipDigits s (skipDigits s i + 1) + 1) = '-' ∨
          getCh s (skipDigits s (skipDigits s i + 1) + 1) = '+'
      · rw [if_pos hsg]
        have hSlt : skipDigits s (skipDigits s i + 1) + 1 < s.length := by
          apply getCh_ne_nul_lt
          rcases hsg with hsg | hsg <;> rw [hsg] <;> decide
        have hC : skipDigits s (skipDigits s i + 1) + 1 + 1 ≤
            skipDigits s (skipDigits s (skipDigits s i + 1) + 1 + 1) :=
          skipDigits_ge s (skipDigits s (skipDigits s i + 1) + 1 + 1)
        rw [slice_append hiA (by omega : skipDigits s i ≤
            skipDigits s (skipDigits s (skipDigits s i + 1) + 1 + 1)),
          slice_append (by omega : skipDigits s i ≤ skipDigits s i + 1)
            (by omega : skipDigits s i + 1 ≤
              skipDigits s (skipDigits s (skipDigits s i + 1) + 1 + 1)),
          slice_singleton hAlt, hdot,
          slice_append hAB (by omega : skipDigits s (skipDigits s i + 1) ≤
            skipDigits s (skipDigits s (skipDigits s i + 1) + 1 + 1)),
          slice_append (by omega : skipDigits s (skipDigits s i + 1) ≤
              skipDigits s (skipDigits s i + 1) + 1)
            (by omega : skipDigits s (skipDigits s i + 1) + 1 ≤
              skipDigits s (skipDigits s (skipDigits s i + 1) + 1 + 1)),
          slice_singleton hBlt, he,
          slice_append (by omega : skipDigits s (skipDigits s i + 1) + 1 ≤
              skipDigits s (skipDigits s i + 1) + 1 + 1)
            (by omega : skipDigits s (skipDigits s i + 1) + 1 + 1 ≤
              skipDigits s (skipDigits s (skipDigits s i + 1) + 1 + 1)),
          slice_singleton hSlt]
        rcases hsg with hsg | hsg
        · rw [hsg]
          exact relaxed_dotexp ['-'] hne1 hd1 hd2 (Or.inr (Or.inl rfl))
            (skipDigits_digits s (skipDigits s (skipDigits s i + 1) + 1 + 1))
        · rw [hsg]
          exact relaxed_dotexp ['+'] hne1 hd1 hd2 (Or.inr (Or.inr rfl))
            (skipDigits_digits s (skipDigits s (skipDigits s i + 1) + 1 + 1))
      · rw [if_neg hsg]
        have hC : skipDigits s (skipDigits s i + 1) + 1 ≤
            skipDigits s (skipDigits s (skipDigits s i + 1) + 1) :=
          skipDigits_ge s (skipDigits s (skipDigits s i + 1) + 1)
        rw [slice_append hiA (by omega : skipDigits s i ≤
            skipDigits s (skipDigits s (skipDigits s i + 1) + 1)),
          slice_append (by omega : skipDigits s i ≤ skipDigits s i + 1)
            (by omega : skipDigits s i + 1 ≤
              skipDigits s (skipDigits s (skipDigits s i + 1) + 1)),
          slice_singleton hAlt, hdot,
          slice_append hAB (by omega : skipDigits s (skipDigits s i + 1) ≤
            skipDigits s (skipDigits s (skipDigits s i + 1) + 1)),
          slice_append (by omega : skipDigits s (skipDigits s i + 1) ≤
              skipDigits s (skipDigits s i + 1) + 1)
            (by omega : skipDigits s (skipDigits s i + 1) + 1 ≤
              skipDigits s (skipDigits s (skipDigits s i + 1) + 1)),
          slice_singleton hBlt, he]
        exact relaxed_dotexp [] hne1 hd1 hd2 (Or.inl rfl)
          (skipDigits_digits s (skipDigits s (skipDigits s i + 1) + 1))
    · rw [if_pos he]
      rw [slice_append hiA (by omega : skipDigits s i ≤ skipDigits s (skipDigits s i + 1)),
        slice_append (by omega : skipDigits s i ≤ skipDigits s i + 1)
          (by omega : skipDigits s i + 1 ≤ skipDigits s (skipDigits s i + 1)),
        slice_singleton hAlt, hdot]
      exact relaxed_dot hne1 hd1 hd2
  · rw [if_neg hdot]
    by_cases he : getCh s (skipDigits s i) = 'e'
    · rw [if_neg (not_not_intro he)]
      have hAlt : skipDigits s i < s.length := getCh_ne_nul_lt (by rw [he]; decide)
      by_cases hsg : getCh s (skipDigits s i + 1) = '-' ∨ getCh s (skipDigits s i + 1) = '+'
      · rw [if_pos hsg]
        have hSlt : skipDigits s i + 1 < s.length := by
          apply getCh_ne_nul_lt
          rcases hsg with hsg | hsg <;> rw [hsg] <;> decide
        have hC : skipDigits s i + 1 + 1 ≤ skipDigits s (skipDigits s i + 1 + 1) :=
          skipDigits_ge s (skipDigits s i + 1 + 1)
        rw [slice_append hiA (by omega : skipDigits s i ≤
            skipDigits s (skipDigits s i + 1 + 1)),
          slice_append (by omega : skipDigits s i ≤ skipDigits s i + 1)
            (by omega : skipDigits s i + 1 ≤ skipDigits s (skipDigits s i + 1 + 1)),
          slice_singleton hAlt, he,
          slice_append (by omega : skipDigits s i + 1 ≤ skipDigits s i + 1 + 1)
            (by omega : skipDigits s i + 1 + 1 ≤ skipDigits s (skipDigits s i + 1 + 1)),
          slice_singleton hSlt]
        rcases hsg with hsg | hsg
        · rw [hsg]
          exact relaxed_exp ['-'] hne1 hd1 (Or.inr (Or.inl rfl))
            (skipDigits_digits s (skipDigits s i + 1 + 1))
        · rw [hsg]
          exact relaxed_exp ['+'] hne1 hd1 (Or.inr (Or.inr rfl))
            (skipDigits_digits s (skipDigits s i + 1 + 1))
      · rw [if_neg hsg]
        have hC : skipDigits s i + 1 ≤ skipDigits s (skipDigits s i + 1) :=
          skipDigits_ge s (skipDigits s i + 1)
        rw [slice_append hiA (by omega : skipDigits s i ≤ skipDigits s (skipDigits s i + 1)),
          slice_append (by omega : skipDigits s i ≤ skipDigits s i + 1)
            (by omega : skipDigits s i + 1 ≤ skipDigits s (skipDigits s i + 1)),
          slice_singleton hAlt, he]
        exact relaxed_exp [] hne1 hd1 (Or.inl rfl) (skipDigits_digits s (skipDigits s i + 1))
    · rw [if_pos he]
      exact relaxed_digits hne1 hd1

/-- Every Number token the scanning loop ever emits has a lexeme
matching the relaxed numeric grammar, provided the accumulated tokens
already do. -/
theorem lexLoop_number_relaxed (f : Nat) :
    ∀ (s : List Char) (i : Nat) (acc : List Token),
      (∀ t ∈ acc, t.type_ = TokenType.number → numGrammarRelaxed t.lexeme = true) →
      ∀ t ∈ (lexLoop f s i acc).1, t.type_ = TokenType.number →
        numGrammarRelaxed t.lexeme = true := by
  induction f with
  | zero =>
    intro s i acc hacc t ht htype
    rw [lexLoop] at ht
    rcases List.mem_append.mp ht with ht | ht
    · exact hacc t ht htype
    · rw [List.mem_singleton] at ht
      subst ht
      exact absurd htype (by decide)
  | succ f ih =>
    intro s i acc hacc t ht htype
    simp only [lexLoop] at ht
    by_cases h1 : i < s.length
    · rw [if_pos h1] at ht
      by_cases h2 : isspace (getCh s i) = true
      · rw [if_pos h2] at ht
        exact ih s (i + 1) acc hacc t ht htype
      · rw [if_neg h2] at ht
        by_cases h3 : isdigit (getCh s i) = true
        · rw [if_pos h3] at ht
          refine ih s _ _ ?_ t ht htype
          intro t2 ht2 htype2
          rcases List.mem_append.mp ht2 with ht2 | ht2
          · exact hacc t2 ht2 htype2
          · rw [List.mem_singleton] at ht2
            subst ht2
            exact lexNumber_relaxed h3
        · rw [if_neg h3] at ht
          by_cases h4 : getCh s i = '+'
          · rw [if_pos h4] at ht
            refine ih s _ _ ?_ t ht htype
            intro t2 ht2 htype2
            rcases List.mem_append.mp ht2 with ht2 | ht2
            · exact hacc t2 ht2 htype2
            · rw [List.mem_singleton] at ht2
              subst ht2
              simp at htype2
          · rw [if_neg h4] at ht
            by_cases h5 : getCh s i = '-'
            · rw [if_pos h5] at ht
              refine ih s _ _ ?_ t ht htype
              intro t2 ht2 htype2
              rcases List.mem_append.mp ht2 with ht2 | ht2
              · exact hacc t2 ht2 htype2
              · rw [List.mem_singleton] at ht2
                subst ht2
                simp at htype2
            · rw [if_neg h5] at ht
              by_cases h6 : getCh s i = '*'
              · rw [if_pos h6] at ht
                refine ih s _ _ ?_ t ht htype
                intro t2 ht2 htype2
                rcases List.mem_append.mp ht2 with ht2 | ht2
                · exact hacc t2 ht2 htype2
                · rw [List.mem_singleton] at ht2
                  subst ht2
                  simp at htype2
              · rw [if_neg h6] at ht
                by_cases h7 : getCh s i = '/'
                · rw [if_pos h7] at ht
                  refine ih s _ _ ?_ t ht htype
                  intro t2 ht2 htype2
                  rcases List.mem_append.mp ht2 with ht2 | ht2
                  · exact hacc t2 ht2 htype2
                  · rw [List.mem_singleton] at ht2
                    subst ht2
                    simp at htype2
                · rw [if_neg h7] at ht
                  exact hacc t ht htype
    · rw [if_neg h1] at ht
      rcases List.mem_append.mp ht with ht | ht
      · exact hacc t ht htype
      · rw [List.mem_singleton] at ht
        subst ht
        exact absurd htype (by decide)

/-- Any error the scanning loop reports carries a character that is
neither whitespace, a digit, nor an operator, read at the reported
in-range zero-based column. -/
theorem lexLoop_error_report (f : Nat) :
    ∀ (s : List Char) (i : Nat) (acc : List Token) (toks : List Token) (err : LexError),
      lexLoop f s i acc = (toks, some err) →
      isspace err.ch = false ∧ isdigit err.ch = false ∧
        err.ch ≠ '+' ∧ err.ch ≠ '-' ∧ err.ch ≠ '*' ∧ err.ch ≠ '/' ∧
        getCh s err.position = err.ch ∧ err.position < s.length := by
  induction f with
  | zero =>
    intro s i acc toks err h
    rw [lexLoop] at h
    simp at h
  | succ f ih =>
    intro s i acc toks err h
    simp only [lexLoop] at h
    by_cases h1 : i < s.length
    · rw [if_pos h1] at h
      by_cases h2 : isspace (getCh s i) = true
      · rw [if_pos h2] at h
        exact ih _ _ _ _ _ h
      · rw [if_neg h2] at h
        by_cases h3 : isdigit (getCh s i) = true
        · rw [if_pos h3] at h
          exact ih _ _ _ _ _ h
        · rw [if_neg h3] at h
          by_cases h4 : getCh s i = '+'
          · rw [if_pos h4] at h
            exact ih _ _ _ _ _ h
          · rw [if_neg h4] at h
            by_cases h5 : getCh s i = '-'
            · rw [if_pos h5] at h
              exact ih _ _ _ _ _ h
            · rw [if_neg h5] at h
              by_cases h6 : getCh s i = '*'
              · rw [if_pos h6] at h
                exact ih _ _ _ _ _ h
              · rw [if_neg h6] at h
                by_cases h7 : getCh s i = '/'
                · rw [if_pos h7] at h
                  exact ih _ _ _ _ _ h
                · rw [if_neg h7] at h
                  injection h with ha hb
                  injection hb with hb
                  subst hb
                  refine ⟨by simpa using h2, by simpa using h3, h4, h5, h6, h7, rfl, h1⟩
    · rw [if_neg h1] at h
      simp at h

/-- With adequate fuel, the digit scan over an all-digit string reaches
its end. -/
theorem skipDigitsAux_all (f : Nat) :
    ∀ (s : List Char) (i : Nat), (∀ c ∈ s, isdigit c = true) →
      s.length - i ≤ f → i ≤ s.length → skipDigitsAux f s i = s.length := by
  induction f with
  | zero =>
    intro s i hall hf hi
    rw [skipDigitsAux]
    omega
  | succ f ih =>
    intro s i hall hf hi
    rw [skipDigitsAux]
    by_cases hi2 : i < s.length
    · have hmem : getCh s i ∈ s := by
        rw [getCh, List.getD_eq_getElem _ _ hi2]
        exact List.getElem_mem hi2
      rw [if_pos (hall _ hmem)]
      exact ih s (i + 1) hall (by omega) (by omega)
    · have hnul : isdigit (getCh s i) = false := by
        rw [getCh, List.getD_eq_default _ _ (by omega)]
        exact isdigit_nul
      rw [hnul]
      simp only [Bool.false_eq_true, if_false]
      omega

/-- A digit character is not whitespace. -/
theorem isdigit_not_isspace {c : Char} (h : isdigit c = true) : isspace c = false := by
  have h1 : 48 ≤ c.toNat ∧ c.toNat ≤ 57 := by simpa [isdigit] using h
  simp only [isspace, Bool.or_eq_false_iff, Bool.and_eq_false_iff]
  constructor
  · simp only [decide_eq_false_iff_not]
    omega
  · right
    simp only [decide_eq_false_iff_not]
    omega

/-- A nonempty all-digit line is tokenized as one Number token whose
lexeme is the whole line, followed by the end-of-input sentinel. -/
theorem lex_all_digits {d : List Char} (hne : d ≠ [])
    (hall : ∀ c ∈ d, isdigit c = true) :
    Tokenizer.lex d = ([⟨TokenType.number, d⟩, eofTok], none) := by
  have hlen : 0 < d.length := List.length_pos.mpr hne
  have hskip : skipDigits d 0 = d.length :=
    skipDigitsAux_all _ d 0 hall (by omega) (by omega)
  have hnulend : getCh d d.length = nulChar := by
    rw [getCh, List.getD_eq_default _ _ (le_refl _)]
  have hnum : lexNumber d 0 = d.length := by
    rw [lexNumber]
    simp only [hskip, hnulend]
    rw [if_neg (by decide : ¬(nulChar = '.'))]
    rw [hnulend]
    rw [if_pos (by decide : nulChar ≠ 'e')]
  have hslice : slice d 0 d.length = d := by
    simp [slice]
  have h0mem : getCh d 0 ∈ d := by
    rw [getCh, List.getD_eq_getElem _ _ hlen]
    exact List.getElem_mem hlen
  have hdig0 : isdigit (getCh d 0) = true := hall _ h0mem
  have hsp0 : isspace (getCh d 0) = false := isdigit_not_isspace hdig0
  rw [Tokenizer.lex]
  have h2 : d.length + 2 = (d.length + 1) + 1 := rfl
  rw [h2, lexLoop]
  rw [if_pos hlen]
  simp only [hsp0, hdig0, Bool.false_eq_true, if_false, if_true, hnum, hslice,
    List.nil_append]
  rw [lexLoop]
  rw [if_neg (by omega : ¬(d.length + 1 < d.length))]
  rfl

/-- Claim C1 fails on the edge shape it insists on: on the empty digit
sequence the tokenizer produces only the end-of-input token, and the
parser's first advance reads tokens_[current_ - 1] with current_ = 0,
an out-of-bounds access (undefined behaviour), instead of producing
parseFloat of the empty string, which is 0. -/
theorem C1_empty_counterexample :
    runLine ([] : List Char) = PResult.ub ∧
    runLine ([] : List Char) ≠ .ok (.value (.fin (strtod [])) false) := by
  decide

/-- Claim C2: binary operators of equal precedence are left-associative:
the input 8 - 3 - 2 parses as the tree ((8 - 3) - 2) with no error and
evaluates to 3. -/
theorem C2_left_assoc :
    parseTokens (Tokenizer.lex [ '8', ' ', '-', ' ', '3', ' ', '-', ' ', '2' ]).1 =
      .ok (.binaryE .minus (.binaryE .minus (.literal 8) (.literal 3)) (.literal 2),
        ⟨(Tokenizer.lex [ '8', ' ', '-', ' ', '3', ' ', '-', ' ', '2' ]).1, 5, []⟩) ∧
    runLine [ '8', ' ', '-', ' ', '3', ' ', '-', ' ', '2' ] =
      .ok (.value (.fin 3) false) := by
  decide

/-- Claim C3: the precedence ordinals of the rule table are strictly
ordered None < Term < Factor < Unary < Primary, multiplication binds
tighter than addition, and 2 + 3 * 4 parses as 2 + (3 * 4) and
evaluates to 14. -/
theorem C3_precedence :
    NONE < TERM ∧ TERM < FACTOR ∧ FACTOR < UNARY ∧ UNARY < PRIMARY ∧
    parseTokens (Tokenizer.lex [ '2', ' ', '+', ' ', '3', ' ', '*', ' ', '4' ]).1 =
      .ok (.binaryE .plus (.literal 2) (.binaryE .star (.literal 3) (.literal 4)),
        ⟨(Tokenizer.lex [ '2', ' ', '+', ' ', '3', ' ', '*', ' ', '4' ]).1, 5, []⟩) ∧
    runLine [ '2', ' ', '+', ' ', '3', ' ', '*', ' ', '4' ] =
      .ok (.value (.fin 14) false) := by
  decide

/-- Claim C4: unary prefix operators parse their operand at UNARY
precedence, bind tighter than any binary operator and nest
right-associatively: -2 + 3 parses as (-2) + 3 and evaluates to 1, and
- -5 parses as -(-5) and evaluates to 5. -/
theorem C4_unary_binding :
    parseTokens (Tokenizer.lex [ '-', '2', ' ', '+', ' ', '3' ]).1 =
      .ok (.binaryE .plus (.unaryE .minus (.literal 2)) (.literal 3),
        ⟨(Tokenizer.lex [ '-', '2', ' ', '+', ' ', '3' ]).1, 4, []⟩) ∧
    runLine [ '-', '2', ' ', '+', ' ', '3' ] = .ok (.value (.fin 1) false) ∧
    parseTokens (Tokenizer.lex [ '-', ' ', '-', '5' ]).1 =
      .ok (.unaryE .minus (.unaryE .minus (.literal 5)),
        ⟨(Tokenizer.lex [ '-', ' ', '-', '5' ]).1, 3, []⟩) ∧
    runLine [ '-', ' ', '-', '5' ] = .ok (.value (.fin 5) false) := by
  decide

/-- Claim C5 fails as stated: the input 1. produces a Number token
whose lexeme 1. does not match the strict numeric grammar of the spec,
because the dot is not followed by a digit. -/
theorem C5_strict_counterexample :
    (Tokenizer.lex [ '1', '.' ]).1 = [⟨.number, [ '1', '.' ]⟩, eofTok] ∧
    numGrammarStrict [ '1', '.' ] = false := by
  decide

/-- Claim C6 names intended behaviour the code does not have: on the
line 1 2 the tokenizer emits two adjacent Number tokens (the blank
after the first number is skipped by the loop increment), the
top-level infix loop then reaches the second Number token, whose rule
has PRIMARY precedence but a null infix member-function pointer, and
the parser calls through that null pointer: undefined behaviour, not a
missing-prefix failure and not a silent success. -/
theorem C6_adjacent_numbers_ub :
    Tokenizer.lex [ '1', ' ', '2' ] =
      ([⟨.number, ['1']⟩, ⟨.number, ['2']⟩, eofTok], none) ∧
    runLine [ '1', ' ', '2' ] = PResult.ub := by
  decide

/-- Claim C7 fails in its universal part: in the input 1&2 the first
character that is neither whitespace, a digit, nor an operator is the
ampersand at column 1, yet lex reports no error at all, because the
loop increment after the number token 1 skips the ampersand without
examining it. -/
theorem C7_skipped_char_counterexample :
    Tokenizer.lex [ '1', '&', '2' ] =
      ([⟨.number, ['1']⟩, ⟨.number, ['2']⟩, eofTok], none) ∧
    isspace '&' = false ∧ isdigit '&' = false ∧
    '&' ≠ '+' ∧ '&' ≠ '-' ∧ '&' ≠ '*' ∧ '&' ≠ '/' ∧
    getCh [ '1', '&', '2' ] 1 = '&' := by
  decide

/-- Claim C8: parsing the token sequence of * 2 fails: the star token
has no prefix rule, so the parser emits the expect-expression error
carrying the lexeme * and returns the null tree; the main loop then
reports the parse failure and never evaluates. -/
theorem C8_missing_prefix_error :
    parseTokens (Tokenizer.lex [ '*', ' ', '2' ]).1 =
      .ok (.nullE, ⟨(Tokenizer.lex [ '*', ' ', '2' ]).1, 1, [.expectExpr ['*']]⟩) ∧
    runLine [ '*', ' ', '2' ] = .ok (.parseFail [.expectExpr ['*']]) := by
  decide

/-- Claim C9: division by zero is not an evaluator error and follows
IEEE-754 semantics: 1 / 0 evaluates to positive infinity and -1 / 0 to
negative infinity, with the evaluator's error flag not raised. -/
theorem C9_division_by_zero :
    runLine [ '1', ' ', '/', ' ', '0' ] = .ok (.value .posInf false) ∧
    runLine [ '-', '1', ' ', '/', ' ', '0' ] = .ok (.value .negInf false) := by
  decide

/-- Claim C1 as amended: for every nonempty sequence of digit
characters d, the full pipeline succeeds with no error and yields
exactly the strtod value of d (the host float-parse of the lexeme). -/
theorem C1_digits_pipeline :
    ∀ d : List Char, d ≠ [] → (∀ c ∈ d, isdigit c = true) →
      runLine d = .ok (.value (.fin (strtod d)) false) := by
  intro d hne hall
  rw [runLine, lex_all_digits hne hall]
  rfl

/-- Witness for C1_digits_pipeline at the one-digit input 7. -/
theorem C1_digits_pipeline_witness :
    (([ '7' ] : List Char) ≠ [] ∧ ∀ c ∈ ([ '7' ] : List Char), isdigit c = true) ∧
      runLine [ '7' ] = .ok (.value (.fin (strtod [ '7' ])) false) :=
  ⟨⟨by decide, by decide⟩, C1_digits_pipeline [ '7' ] (by decide) (by decide)⟩

/-- Claim C5 as amended: every Number token emitted by lex has a lexeme
matching the relaxed numeric grammar actually scanned by the tokenizer,
digits, an optional dot followed by any digits (possibly none), and an
optional exponent letter with an optional sign followed by any digits
(possibly none). -/
theorem C5_relaxed_grammar :
    ∀ (src : List Char) (t : Token), t ∈ (Tokenizer.lex src).1 →
      t.type_ = TokenType.number → numGrammarRelaxed t.lexeme = true :=
  fun src t ht htype =>
    lexLoop_number_relaxed (src.length + 2) src 0 [] (by simp) t ht htype

/-- Witness for C5_relaxed_grammar at the input 1. whose Number token
has the malformed-but-scanned lexeme 1. -/
theorem C5_relaxed_grammar_witness :
    ((⟨TokenType.number, [ '1', '.' ]⟩ : Token) ∈ (Tokenizer.lex [ '1', '.' ]).1 ∧
      (⟨TokenType.number, [ '1', '.' ]⟩ : Token).type_ = TokenType.number) ∧
      numGrammarRelaxed [ '1', '.' ] = true :=
  ⟨⟨by decide, rfl⟩,
    C5_relaxed_grammar [ '1', '.' ] ⟨TokenType.number, [ '1', '.' ]⟩ (by decide) rfl⟩

/-- Claim C7 as amended: lex on 3 & 4 stops at the ampersand with an
error carrying the character and its zero-based column 2, producing no
tokens beyond those scanned before it; and in general every lexical
error the tokenizer reports carries a character that is neither
whitespace, a digit, nor one of + - * /, read at the reported in-range
column.  (The character immediately after a number token is skipped by
the loop increment without being examined, so a bad character in that
one position is passed over silently, as the counterexample shows.) -/
theorem C7_lex_error_report :
    Tokenizer.lex [ '3', ' ', '&', ' ', '4' ] =
      ([⟨TokenType.number, ['3']⟩], some ⟨2, '&'⟩) ∧
    ∀ (src : List Char) (toks : List Token) (err : LexError),
      Tokenizer.lex src = (toks, some err) →
      isspace err.ch = false ∧ isdigit err.ch = false ∧
        err.ch ≠ '+' ∧ err.ch ≠ '-' ∧ err.ch ≠ '*' ∧ err.ch ≠ '/' ∧
        getCh src err.position = err.ch ∧ err.position < src.length :=
  ⟨by decide,
    fun src toks err h => lexLoop_error_report (src.length + 2) src 0 [] toks err h⟩

/-- Witness for the universal part of C7_lex_error_report at the input
5 followed by a blank and an at sign. -/
theorem C7_lex_error_report_witness :
    Tokenizer.lex [ '5', ' ', '@' ] = ([⟨TokenType.number, ['5']⟩], some ⟨2, '@'⟩) ∧
      (isspace '@' = false ∧ isdigit '@' = false ∧
        ('@' : Char) ≠ '+' ∧ ('@' : Char) ≠ '-' ∧ ('@' : Char) ≠ '*' ∧ ('@' : Char) ≠ '/' ∧
        getCh [ '5', ' ', '@' ] 2 = '@' ∧ 2 < ([ '5', ' ', '@' ] : List Char).length) :=
  ⟨by decide,
    C7_lex_error_report.2 [ '5', ' ', '@' ] [⟨TokenType.number, ['5']⟩] ⟨2, '@'⟩ (by decide)⟩

/-- What advance returns: the state keeps its errors and tokens, and
the returned token is previous() of the returned state. -/
theorem advance_spec {s : PState} {t : Token} {s1 : PState}
    (h : advance s = some (t, s1)) :
    s1.errors = s.errors ∧ s1.tokens = s.tokens ∧ previousT s1 = some t := by
  simp only [advance] at h
  split at h
  · cases h
  · split at h
    · cases h
    · rename_i p hp
      simp only [Option.some.injEq, Prod.mk.injEq] at h
      obtain ⟨h1, h2⟩ := h
      subst h1
      subst h2
      refine ⟨?_, ?_, hp⟩
      · split <;> rfl
      · split <;> rfl

/-- Only plus and minus carry the unary prefix action. -/
theorem prefix_unary_type {tt : TokenType}
    (h : (getRule tt).prefixA = some PrefixFn.unaryFn) :
    tt = TokenType.plus ∨ tt = TokenType.minus := by
  cases tt <;> revert h <;> decide

/-- Only number carries the literal prefix action. -/
theorem prefix_primary_type {tt : TokenType}
    (h : (getRule tt).prefixA = some PrefixFn.primaryFn) : tt = TokenType.number := by
  cases tt <;> revert h <;> decide

/-- Only the four operators carry the binary infix action. -/
theorem infix_binary_type {tt : TokenType}
    (h : (getRule tt).infixA = some InfixFn.binaryFn) :
    tt = TokenType.plus ∨ tt = TokenType.minus ∨
      tt = TokenType.star ∨ tt = TokenType.slash := by
  cases tt <;> revert h <;> decide

/-- Error extension is reflexive. -/
theorem errExt_refl (s : PState) : errExt s s := ⟨[], by simp⟩

/-- Error extension is transitive. -/
theorem errExt_trans {a b c : PState} (h1 : errExt a b) (h2 : errExt b c) : errExt a c := by
  obtain ⟨t1, h1⟩ := h1
  obtain ⟨t2, h2⟩ := h2
  exact ⟨t1 ++ t2, by rw [h2, h1, List.append_assoc]⟩

/-- Emitting an error extends the error list. -/
theorem errExt_emit (e : PError) (s : PState) : errExt s (emitError e s) := ⟨[e], rfl⟩

/-- If the errors after two extensions equal the starting errors, the
intermediate errors already equal them. -/
theorem errExt_squeeze {a b c : PState} (h1 : errExt a b) (h2 : errExt b c)
    (he : c.errors = a.errors) : b.errors = a.errors := by
  obtain ⟨t1, h1⟩ := h1
  obtain ⟨t2, h2⟩ := h2
  have hcat : a.errors ++ (t1 ++ t2) = a.errors ++ [] := by
    rw [← List.append_assoc, ← h1, ← h2, he, List.append_nil]
  have hnil : t1 ++ t2 = [] := by
    have hlen := congrArg List.length hcat
    simp at hlen
    rcases hlen with ⟨ha, hb⟩
    rw [ha, hb]
    rfl
  have ht1 : t1 = [] := (List.append_eq_nil.mp hnil).1
  rw [h1, ht1, List.append_nil]

/-- A well-formed tree never trips the evaluator's invalid-operator
branches: the error flag stays down. -/
theorem goodExpr_eval {e : Expr} (h : goodExpr e = true) :
    (evaluateExpression e).2 = false := by
  induction e with
  | nullE => cases h
  | literal v => rfl
  | unaryE op r ih =>
    simp only [goodExpr, Bool.and_eq_true, Bool.or_eq_true, decide_eq_true_eq] at h
    obtain ⟨h1, h2⟩ := h
    rcases h1 with h1 | h1 <;> subst h1 <;> simp [evaluateExpression, ih h2]
  | binaryE op l r ihl ihr =>
    simp only [goodExpr, Bool.and_eq_true, Bool.or_eq_true, decide_eq_true_eq] at h
    obtain ⟨⟨h1, h2⟩, h3⟩ := h
    rcases h1 with ((h1 | h1) | h1) | h1 <;> subst h1 <;>
      simp [evaluateExpression, ihl h2, ihr h3]

/-- Invariant of the parser: errors only grow, and whenever a parse
entry returns without emitting a new error its expression is
well-formed (for the loop entry, provided the accumulated expression
was). -/
theorem parseStep_inv (f : Nat) :
    ∀ (c : PCall) (e : Expr) (s1 : PState), parseStep f c = .ok (e, s1) →
      (match c with
       | .prec _ s => errExt s s1 ∧ (s1.errors = s.errors → goodExpr e = true)
       | .loop _ e0 s =>
          errExt s s1 ∧
            (s1.errors = s.errors → goodExpr e0 = true → goodExpr e = true)) := by
  induction f with
  | zero =>
    intro c e s1 h
    simp only [parseStep] at h
    cases h
  | succ f ih =>
    intro c e s1 h
    cases c with
    | prec minPrec s =>
      simp only [parseStep] at h
      split at h
      · cases h
      · rename_i token sA hadv
        obtain ⟨hErrA, hToksA, hPrevA⟩ := advance_spec hadv
        have hExtA : errExt s sA := ⟨[], by rw [hErrA, List.append_nil]⟩
        split at h
        · rename_i hpre
          simp only [PResult.ok.injEq, Prod.mk.injEq] at h
          obtain ⟨he, hs1⟩ := h
          subst he
          subst hs1
          constructor
          · exact errExt_trans hExtA (errExt_emit _ _)
          · intro heq
            exfalso
            have h2 : sA.errors ++ [PError.expectExpr token.lexeme] = s.errors := heq
            rw [hErrA] at h2
            have h3 := congrArg List.length h2
            simp at h3
        · rename_i hpre
          split at h
          · rename_i e2 s2 hpp
            have hnum := prefix_primary_type hpre
            simp only [primaryP, hPrevA] at hpp
            rw [if_pos hnum] at hpp
            simp only [PResult.ok.injEq, Prod.mk.injEq] at hpp
            obtain ⟨he2, hs2⟩ := hpp
            subst he2
            subst hs2
            obtain ⟨IH1, IH2⟩ :=
              ih (.loop minPrec (.literal (strtod token.lexeme)) sA) e s1 h
            constructor
            · exact errExt_trans hExtA IH1
            · intro heq
              exact IH2 (by rw [heq, hErrA]) rfl
          · cases h
          · cases h
        · rename_i hpre
          split at h
          · cases h
          · rename_i op hPrev2
            rw [hPrevA] at hPrev2
            injection hPrev2 with hop
            rw [← hop] at h
            split at h
            · rename_i right s2 hrec
              obtain ⟨IH11, IH12⟩ := ih (.prec UNARY sA) right s2 hrec
              obtain ⟨IH21, IH22⟩ :=
                ih (.loop minPrec (.unaryE token.type_ right) s2) e s1 h
              constructor
              · exact errExt_trans hExtA (errExt_trans IH11 IH21)
              · intro heq
                have hs2eq : s2.errors = s.errors :=
                  errExt_squeeze (errExt_trans hExtA IH11) IH21 heq
                have hgr : goodExpr right = true := IH12 (by rw [hs2eq, hErrA])
                have hgu : goodExpr (.unaryE token.type_ right) = true := by
                  rcases prefix_unary_type hpre with ht | ht <;> rw [ht] <;>
                    simp [goodExpr, hgr]
                exact IH22 (by rw [heq, ← hs2eq]) hgu
            · cases h
            · cases h
    | loop minPrec e0 s =>
      simp only [parseStep] at h
      split at h
      · cases h
      · rename_i t hpeek
        split at h
        · simp only [PResult.ok.injEq, Prod.mk.injEq] at h
          obtain ⟨he, hs1⟩ := h
          subst he
          subst hs1
          exact ⟨errExt_refl s, fun _ hg => hg⟩
        · split at h
          · cases h
          · rename_i token sA hadv
            obtain ⟨hErrA, hToksA, hPrevA⟩ := advance_spec hadv
            have hExtA : errExt s sA := ⟨[], by rw [hErrA, List.append_nil]⟩
            split at h
            · cases h
            · rename_i hinf
              split at h
              · cases h
              · rename_i op hPrev2
                rw [hPrevA] at hPrev2
                injection hPrev2 with hop
                rw [← hop] at h
                split at h
                · rename_i right s2 hrec
                  obtain ⟨IH11, IH12⟩ :=
                    ih (.prec ((getRule token.type_).precedence + 1) sA) right s2 hrec
                  obtain ⟨IH21, IH22⟩ :=
                    ih (.loop minPrec (.binaryE token.type_ e0 right) s2) e s1 h
                  constructor
                  · exact errExt_trans hExtA (errExt_trans IH11 IH21)
                  · intro heq hg0
                    have hs2eq : s2.errors = s.errors :=
                      errExt_squeeze (errExt_trans hExtA IH11) IH21 heq
                    have hgr : goodExpr right = true := IH12 (by rw [hs2eq, hErrA])
                    have hgb : goodExpr (.binaryE token.type_ e0 right) = true := by
                      rcases infix_binary_type hinf with ht | ht | ht | ht <;> rw [ht] <;>
                        simp [goodExpr, hg0, hgr]
                    exact IH22 (by rw [heq, ← hs2eq]) hgb
                · cases h
                · cases h

/-- Claim C10: every expression tree returned by a parse that reported
no error is well-formed, its binary operators among plus, minus, star,
slash and its unary operators among plus, minus, with no null children;
consequently the evaluator's invalid-operator branches are unreachable
and its error flag stays down on every parser-built tree. -/
theorem C10_parser_trees_safe :
    ∀ (toks : List Token) (e : Expr) (st : PState),
      parseTokens toks = .ok (e, st) → st.errors = [] →
      goodExpr e = true ∧ (evaluateExpression e).2 = false := by
  intro toks e st h herr
  obtain ⟨_, h2⟩ := parseStep_inv _ (.prec TERM ⟨toks, 0, []⟩) e st h
  have hg := h2 herr
  exact ⟨hg, goodExpr_eval hg⟩

/-- Witness for C10_parser_trees_safe at the token sequence of the
single number 1. -/
theorem C10_parser_trees_safe_witness :
    (parseTokens [⟨TokenType.number, ['1']⟩, eofTok] =
        .ok (.literal (strtod ['1']),
          ⟨[⟨TokenType.number, ['1']⟩, eofTok], 1, []⟩) ∧
      (⟨[⟨TokenType.number, ['1']⟩, eofTok], 1, []⟩ : PState).errors = []) ∧
      (goodExpr (.literal (strtod ['1'])) = true ∧
        (evaluateExpression (.literal (strtod ['1']))).2 = false) :=
  ⟨⟨rfl, rfl⟩,
    C10_parser_trees_safe [⟨TokenType.number, ['1']⟩, eofTok]
      (.literal (strtod ['1'])) ⟨[⟨TokenType.number, ['1']⟩, eofTok], 1, []⟩
      (by decide) rfl⟩

end Yami
